import Mathlib

/-!
Verification of the maximum-gap penalty-model generator of this repository.

The repository ships only the test suites for the generator
(`penaltymodel_maxgap/tests/test_generation.py`) and for the `Specification`
data class; the implementation itself is absent.  Following the spec
(spec.md §3, §4, §6, §7), the generator is therefore modelled here from the
spec's words: inputs are an interaction graph, an ordered tuple of decision
variables, a mapping from feasible spin tuples to relative energy offsets,
per-node and per-edge bias ranges and a minimum classical gap; outputs are
`(h, J, offset, gap)` subject to the ground-equality, gap and range
invariants of §3, with the gap maximal (§1, §4.4), or the
`ImpossiblePenaltyModel` error when no model exists in the ranges at
`gap ≥ max(g_min, 0)` (§6).  Reals are modelled as rationals, which is exact
for every concrete scenario in the spec and the tests.
-/

namespace PenaltyModelMaxgap

/-! ### Minimum of a list of rationals -/

/-- Minimum of a list of rationals; `0` for the empty list (all uses below are
on non-empty lists of enumerated auxiliary assignments). -/
def minList : List ℚ → ℚ
  | [] => 0
  | a :: l => l.foldl min a

lemma foldl_min_le_init (l : List ℚ) (a : ℚ) : l.foldl min a ≤ a := by
  induction l generalizing a with
  | nil => exact le_refl a
  | cons x xs ih => exact le_trans (ih (min a x)) (min_le_left a x)

lemma foldl_min_le_mem {l : List ℚ} {b : ℚ} (hb : b ∈ l) (a : ℚ) :
    l.foldl min a ≤ b := by
  induction l generalizing a with
  | nil => cases hb
  | cons x xs ih =>
    rcases List.mem_cons.mp hb with h | h
    · subst h
      exact le_trans (foldl_min_le_init xs (min a b)) (min_le_right a b)
    · exact ih h (min a x)

lemma foldl_min_mem (l : List ℚ) (a : ℚ) :
    l.foldl min a = a ∨ l.foldl min a ∈ l := by
  induction l generalizing a with
  | nil => exact Or.inl rfl
  | cons x xs ih =>
    show xs.foldl min (min a x) = a ∨ xs.foldl min (min a x) ∈ x :: xs
    rcases ih (min a x) with h | h
    · rcases min_choice a x with hax | hax
      · exact Or.inl (by rw [h, hax])
      · exact Or.inr (List.mem_cons.mpr (Or.inl (by rw [h, hax])))
    · exact Or.inr (List.mem_cons.mpr (Or.inr h))

lemma minList_le {l : List ℚ} {b : ℚ} (hb : b ∈ l) : minList l ≤ b := by
  cases l with
  | nil => cases hb
  | cons a l =>
    rcases List.mem_cons.mp hb with h | h
    · exact h ▸ foldl_min_le_init l a
    · exact foldl_min_le_mem h a

lemma minList_mem {l : List ℚ} (h : l ≠ []) : minList l ∈ l := by
  cases l with
  | nil => exact absurd rfl h
  | cons a l =>
    rcases foldl_min_mem l a with h' | h'
    · exact List.mem_cons.mpr (Or.inl h')
    · exact List.mem_cons.mpr (Or.inr h')

lemma foldl_min_sub (l : List ℚ) (a c : ℚ) :
    (l.map (fun x => x - c)).foldl min (a - c) = l.foldl min a - c := by
  induction l generalizing a with
  | nil => rfl
  | cons x xs ih =>
    have hmin : min (a - c) (x - c) = min a x - c := by
      rcases le_total a x with h | h
      · rw [min_eq_left h, min_eq_left (by linarith)]
      · rw [min_eq_right h, min_eq_right (by linarith)]
    simp only [List.map_cons, List.foldl_cons, hmin]
    exact ih (min a x)

lemma minList_map_sub {l : List ℚ} (h : l ≠ []) (c : ℚ) :
    minList (l.map (fun x => x - c)) = minList l - c := by
  cases l with
  | nil => exact absurd rfl h
  | cons a l => exact foldl_min_sub l a c

/-! ### Data model of the generator, modelled from the spec -/

/-- Modelled from the spec (§3, §6): the inputs of `generate_ising`, whose
implementation is absent from src/.  Nodes are opaque labels (here natural
numbers), the interaction graph is given by its node and edge lists, the
decision variables are an ordered tuple of nodes, the feasible configurations
map spin tuples (indexed by the decision tuple) to relative energy offsets,
and each node/edge carries a bias range.  `gmin` is `min_classical_gap`. -/
structure IsingInputs where
  nodes : List ℕ
  edges : List (ℕ × ℕ)
  dec : List ℕ
  feas : List (List ℤ × ℚ)
  linRange : ℕ → ℚ × ℚ
  quadRange : ℕ × ℕ → ℚ × ℚ
  gmin : ℚ

/-- Modelled from the spec (§3): the output quadruple `(h, J, offset, gap)`
of `generate_ising`. -/
structure IsingOutput where
  h : ℕ → ℚ
  J : ℕ → ℕ → ℚ
  offset : ℚ
  gap : ℚ

/-- The auxiliary variables `A = V ∖ D` (spec §3). -/
def auxNodes (inp : IsingInputs) : List ℕ :=
  inp.nodes.filter (fun v => !(inp.dec.contains v))

/-- All spin tuples of a given length, i.e. `{-1,+1}^k` enumerated. -/
def spinTuples : ℕ → List (List ℤ)
  | 0 => [[]]
  | n + 1 => (spinTuples n).map (fun t => -1 :: t) ++ (spinTuples n).map (fun t => 1 :: t)

lemma spinTuples_ne_nil (n : ℕ) : spinTuples n ≠ [] := by
  cases n with
  | zero => simp [spinTuples]
  | succ n =>
    simp only [spinTuples, ne_eq, List.append_eq_nil, List.map_eq_nil_iff]
    intro ⟨h, _⟩
    exact spinTuples_ne_nil n h

/-- Association-list lookup for spin assignments; variables not listed get
spin `1` (they never occur in the energy expression of a well-formed call). -/
def assocGet : List (ℕ × ℤ) → ℕ → ℤ
  | [], _ => 1
  | (k, s) :: ps, v => if v = k then s else assocGet ps v

/-- The total spin assignment determined by a decision tuple `x` and an
auxiliary tuple `a` (spec §4.2: decision variables concrete, auxiliaries
enumerated). -/
def assignOf (inp : IsingInputs) (x a : List ℤ) : ℕ → ℤ :=
  assocGet (inp.dec.zip x ++ (auxNodes inp).zip a)

/-- The `(h, J)`-part of the Ising energy
`Σ_v h_v σ(v) + Σ_{(u,v)∈E} J_uv σ(u) σ(v)` (spec §4.2, glossary). -/
def energyHJ (inp : IsingInputs) (h : ℕ → ℚ) (J : ℕ → ℕ → ℚ) (σ : ℕ → ℤ) : ℚ :=
  (inp.nodes.map (fun v => h v * (σ v : ℚ))).sum
    + (inp.edges.map (fun e => J e.1 e.2 * (σ e.1 : ℚ) * (σ e.2 : ℚ))).sum

/-- The enumerated auxiliary assignments `{-1,+1}^|A|` (spec §4.2). -/
def auxTuples (inp : IsingInputs) : List (List ℤ) :=
  spinTuples (auxNodes inp).length

/-- `min_A` of the `(h, J)`-only energy of a decision tuple `x` over all
auxiliary assignments (spec §3, §4.2). -/
def minAuxHJ (inp : IsingInputs) (h : ℕ → ℚ) (J : ℕ → ℕ → ℚ) (x : List ℤ) : ℚ :=
  minList ((auxTuples inp).map (fun a => energyHJ inp h J (assignOf inp x a)))

/-- `min_A` of the total energy (including the offset) of a decision tuple
`x` (spec §3: `min_A energy(x, A)`). -/
def minAuxE (inp : IsingInputs) (out : IsingOutput) (x : List ℤ) : ℚ :=
  minAuxHJ inp out.h out.J x + out.offset

/-- Range containment (spec §3, §8: `h_v ∈ lin_range(v)`,
`J_uv ∈ quad_range({u,v})`). -/
def InRanges (inp : IsingInputs) (out : IsingOutput) : Prop :=
  (∀ v ∈ inp.nodes, (inp.linRange v).1 ≤ out.h v ∧ out.h v ≤ (inp.linRange v).2) ∧
  (∀ e ∈ inp.edges, (inp.quadRange e).1 ≤ out.J e.1 e.2 ∧ out.J e.1 e.2 ≤ (inp.quadRange e).2)

/-- The decision tuples present in `dom(F)`. -/
def feasKeys (inp : IsingInputs) : List (List ℤ) :=
  inp.feas.map Prod.fst

/-- Modelled from the spec (§3 invariants, §4.3, §6): `(h, J, offset, gap)`
is a valid penalty model for the given inputs when all biases are inside
their ranges, every feasible configuration attains exactly its stored
relative offset (the ground is normalized to `0`, §4.3), every infeasible
decision tuple has `min_A` energy at least `gap`, and
`gap ≥ max(min_classical_gap, 0)` (§6). -/
def ValidOutput (inp : IsingInputs) (out : IsingOutput) : Prop :=
  InRanges inp out ∧
  (∀ p ∈ inp.feas, minAuxE inp out p.1 = p.2) ∧
  (∀ x ∈ spinTuples inp.dec.length, x ∉ feasKeys inp → out.gap ≤ minAuxE inp out x) ∧
  max inp.gmin 0 ≤ out.gap

/-- Modelled from the spec (§1 item 2, §3, §4.4): `generate_ising` returns a
valid model whose reported gap is the largest achievable one. -/
def Generates (inp : IsingInputs) (out : IsingOutput) : Prop :=
  ValidOutput inp out ∧ ∀ out', ValidOutput inp out' → out'.gap ≤ out.gap

/-- Modelled from the spec (§6): `ImpossiblePenaltyModel` is raised exactly
when no model exists in the given ranges at `gap ≥ max(g_min, 0)`. -/
def RaisesImpossible (inp : IsingInputs) : Prop :=
  ¬ ∃ out, ValidOutput inp out

/-- The minimum `(h, J)`-only energy over the feasible configurations
(spec §4.5, used to relate the returned offset to the ground). -/
def groundHJ (inp : IsingInputs) (h : ℕ → ℚ) (J : ℕ → ℕ → ℚ) : ℚ :=
  minList (inp.feas.map (fun p => minAuxHJ inp h J p.1))

/-- The same inputs with a different `min_classical_gap`. -/
def withGmin (inp : IsingInputs) (g : ℚ) : IsingInputs :=
  { inp with gmin := g }

/-! ### Input validation and the outcome relation -/

/-- A spin tuple: every entry is `-1` or `+1`. -/
def spinTupleB (t : List ℤ) : Bool :=
  t.all (fun s => s == -1 || s == 1)

/-- Modelled from the spec (§6, §7): the up-front validation of
`generate_ising` — a malformed graph (edge endpoints outside the node list,
self-loops, duplicate nodes), decision variables outside the graph or
repeated, an empty or ill-formed feasible-configuration table (wrong arity
or non-spin values), or a range with `lo > hi`, make the input invalid. -/
def validInput (inp : IsingInputs) : Bool :=
  decide inp.nodes.Nodup &&
  inp.edges.all (fun e => inp.nodes.contains e.1 && inp.nodes.contains e.2 && e.1 != e.2) &&
  inp.dec.all (fun v => inp.nodes.contains v) && decide inp.dec.Nodup &&
  !inp.feas.isEmpty &&
  inp.feas.all (fun p => p.1.length == inp.dec.length && spinTupleB p.1) &&
  inp.nodes.all (fun v => decide ((inp.linRange v).1 ≤ (inp.linRange v).2)) &&
  inp.edges.all (fun e => decide ((inp.quadRange e).1 ≤ (inp.quadRange e).2))

/-- The observable outcome of one `generate_ising` call (spec §6, §7). -/
inductive GenOutcome where
  | invalidInput : GenOutcome
  | impossible : GenOutcome
  | success : IsingOutput → GenOutcome

/-- Modelled from the spec (§4.4, §7): the behaviour of one `generate_ising`
call, together with the number of SMT `check-sat` calls it makes.
Validation failures surface `InvalidInput` before any SMT call; otherwise
the feasibility check issues at least one SMT call and either raises
`ImpossiblePenaltyModel` or maximizes the gap and returns a model. -/
inductive Behaves (inp : IsingInputs) : GenOutcome → ℕ → Prop where
  | invalid : validInput inp = false → Behaves inp GenOutcome.invalidInput 0
  | impossible (n : ℕ) : validInput inp = true → RaisesImpossible inp →
      Behaves inp GenOutcome.impossible (n + 1)
  | success (n : ℕ) (out : IsingOutput) : validInput inp = true → Generates inp out →
      Behaves inp (GenOutcome.success out) (n + 1)

/-! ### Concrete instances used by the spec and the test suite -/

/-- The singleton relation of spec §8 scenario 5 and
`test_negative_min_gap_feasible_bqm`: `D = ('a')`, `F = {(-1,): -1}`,
`G = K_1`, linear range `[-2, 2]`, with `min_classical_gap = g`. -/
def sIn (g : ℚ) : IsingInputs where
  nodes := [0]
  edges := []
  dec := [0]
  feas := [([-1], -1)]
  linRange := fun _ => (-2, 2)
  quadRange := fun _ => (-1, 1)
  gmin := g

/-- The gap-maximal model for the singleton relation: `h_a = 2`,
`offset = 1`, so the feasible configuration has energy `-2 + 1 = -1 = F[f]`
and the infeasible one `2 + 1 = 3`. -/
def sOut3 : IsingOutput where
  h := fun _ => 2
  J := fun _ _ => 0
  offset := 1
  gap := 3

/-- The EQ relation on an edge: `D = (0, 1)`, `F = {(-1,-1): 0, (1,1): 0}`
on `K_2`, linear ranges `[-2, 2]`, quadratic range `[-1, 1]`. -/
def eqIn : IsingInputs where
  nodes := [0, 1]
  edges := [(0, 1)]
  dec := [0, 1]
  feas := [([-1, -1], 0), ([1, 1], 0)]
  linRange := fun _ => (-2, 2)
  quadRange := fun _ => (-1, 1)
  gmin := 2

/-- The gap-maximal model for `eqIn`: `h = 0`, `J = -1`, `offset = 1`,
feasible energies `0`, infeasible energies `2`. -/
def eqOut : IsingOutput where
  h := fun _ => 0
  J := fun _ _ => -1
  offset := 1
  gap := 2

/-- The EQ relation with asymmetric ranges (cf. spec §8 scenario 6 and
`test_restricted_energy_ranges`): linear ranges `[-1, 2]`, quadratic range
`[-1, 1/2]`. -/
def asymIn : IsingInputs where
  nodes := [0, 1]
  edges := [(0, 1)]
  dec := [0, 1]
  feas := [([-1, -1], 0), ([1, 1], 0)]
  linRange := fun _ => (-1, 2)
  quadRange := fun _ => (-1, 1 / 2)
  gmin := 2

/-- The AND relation on the 3-path (`test_impossible_model`):
`F` is the AND truth table over `D = (0, 1, 2)`, edges `0-1` and `1-2`,
linear ranges `[-2, 2]`, quadratic ranges `[-1, 1]`,
`min_classical_gap = 2`. -/
def andIn : IsingInputs where
  nodes := [0, 1, 2]
  edges := [(0, 1), (1, 2)]
  dec := [0, 1, 2]
  feas := [([-1, -1, -1], 0), ([-1, 1, -1], 0), ([1, -1, -1], 0), ([1, 1, 1], 0)]
  linRange := fun _ => (-2, 2)
  quadRange := fun _ => (-1, 1)
  gmin := 2

/-- The XOR relation on `K_3` without auxiliary variables
(`test_negative_min_gap_impossible_bqm`, spec §8 scenario 2), with
`min_classical_gap = g`. -/
def xorIn (g : ℚ) : IsingInputs where
  nodes := [0, 1, 2]
  edges := [(0, 1), (0, 2), (1, 2)]
  dec := [0, 1, 2]
  feas := [([-1, -1, -1], 0), ([-1, 1, 1], 0), ([1, -1, 1], 0), ([1, 1, -1], 0)]
  linRange := fun _ => (-2, 2)
  quadRange := fun _ => (-1, 1)
  gmin := g

/-- The all-zero model: every bias, the offset and the gap are `0`. -/
def zeroOut : IsingOutput where
  h := fun _ => 0
  J := fun _ _ => 0
  offset := 0
  gap := 0

/-- A malformed input: the linear range of the only node is `(2, -2)`,
i.e. `lo > hi`. -/
def badIn : IsingInputs where
  nodes := [0]
  edges := []
  dec := [0]
  feas := [([-1], -1)]
  linRange := fun _ => (2, -2)
  quadRange := fun _ => (-1, 1)
  gmin := 2

/-! ### Helper lemmas about the concrete instances -/

lemma valid_gmin_mono {inp : IsingInputs} {g₁ g₂ : ℚ} {out : IsingOutput}
    (hg : g₁ ≤ g₂) (hv : ValidOutput (withGmin inp g₂) out) :
    ValidOutput (withGmin inp g₁) out := by
  obtain ⟨hr, hfe, hinf, hgap⟩ := hv
  exact ⟨hr, hfe, hinf, le_trans (max_le_max hg le_rfl) hgap⟩

lemma sIn_valid (g : ℚ) (hg : g ≤ 3) : ValidOutput (sIn g) sOut3 := by
  refine ⟨?_, ?_, ?_, max_le hg (by norm_num [sOut3])⟩ <;>
    norm_num [InRanges, minAuxE, minAuxHJ, energyHJ, auxTuples, auxNodes,
      spinTuples, assignOf, assocGet, minList, feasKeys, sIn, sOut3,
      List.forall_mem_cons]

lemma sIn_gap_le (g : ℚ) (out : IsingOutput) (hv : ValidOutput (sIn g) out) :
    out.gap ≤ 3 := by
  obtain ⟨⟨hlin, _⟩, hfe, hinf, _⟩ := hv
  have h0 := hlin 0 (by simp [sIn])
  have hf := hfe ([-1], -1) (by simp [sIn])
  have hi := hinf [1] (by simp [sIn, spinTuples]) (by simp [sIn, feasKeys])
  norm_num [minAuxE, minAuxHJ, energyHJ, auxTuples, auxNodes, spinTuples,
    assignOf, assocGet, minList, sIn] at hf hi h0
  linarith

lemma sIn_gen (g : ℚ) (hg : g ≤ 3) : Generates (sIn g) sOut3 :=
  ⟨sIn_valid g hg, fun out' hv => sIn_gap_le g out' hv⟩

lemma eq_valid : ValidOutput eqIn eqOut := by
  refine ⟨?_, ?_, ?_, by norm_num [eqIn, eqOut]⟩ <;>
    norm_num [InRanges, minAuxE, minAuxHJ, energyHJ, auxTuples, auxNodes,
      spinTuples, assignOf, assocGet, minList, feasKeys, eqIn, eqOut,
      List.forall_mem_cons]

lemma eq_gap_le (out : IsingOutput) (hv : ValidOutput eqIn out) : out.gap ≤ 2 := by
  obtain ⟨⟨hlin, hquad⟩, hfe, hinf, _⟩ := hv
  have hJ := hquad (0, 1) (by simp [eqIn])
  have hf1 := hfe ([-1, -1], 0) (by simp [eqIn])
  have hf2 := hfe ([1, 1], 0) (by simp [eqIn])
  have hi1 := hinf [-1, 1] (by simp [eqIn, spinTuples]) (by simp [eqIn, feasKeys])
  have hi2 := hinf [1, -1] (by simp [eqIn, spinTuples]) (by simp [eqIn, feasKeys])
  norm_num [minAuxE, minAuxHJ, energyHJ, auxTuples, auxNodes, spinTuples,
    assignOf, assocGet, minList, eqIn] at hJ hf1 hf2 hi1 hi2
  linarith

lemma eq_gen : Generates eqIn eqOut :=
  ⟨eq_valid, fun out' hv => eq_gap_le out' hv⟩

lemma asym_valid : ValidOutput asymIn eqOut := by
  refine ⟨?_, ?_, ?_, by norm_num [asymIn, eqOut]⟩ <;>
    norm_num [InRanges, minAuxE, minAuxHJ, energyHJ, auxTuples, auxNodes,
      spinTuples, assignOf, assocGet, minList, feasKeys, asymIn, eqOut,
      List.forall_mem_cons]

lemma asym_gap_le (out : IsingOutput) (hv : ValidOutput asymIn out) : out.gap ≤ 2 := by
  obtain ⟨⟨hlin, hquad⟩, hfe, hinf, _⟩ := hv
  have hJ := hquad (0, 1) (by simp [asymIn])
  have hf1 := hfe ([-1, -1], 0) (by simp [asymIn])
  have hf2 := hfe ([1, 1], 0) (by simp [asymIn])
  have hi1 := hinf [-1, 1] (by simp [asymIn, spinTuples]) (by simp [asymIn, feasKeys])
  have hi2 := hinf [1, -1] (by simp [asymIn, spinTuples]) (by simp [asymIn, feasKeys])
  norm_num [minAuxE, minAuxHJ, energyHJ, auxTuples, auxNodes, spinTuples,
    assignOf, assocGet, minList, asymIn] at hJ hf1 hf2 hi1 hi2
  linarith

lemma asym_gen : Generates asymIn eqOut :=
  ⟨asym_valid, fun out' hv => asym_gap_le out' hv⟩

lemma and_impossible : RaisesImpossible andIn := by
  rintro ⟨out, ⟨_, hfe, hinf, hgap⟩⟩
  have hgap' : (2 : ℚ) ≤ out.gap := le_trans (le_max_left 2 0) hgap
  have hf2 := hfe ([-1, 1, -1], 0) (by simp [andIn])
  have hf4 := hfe ([1, 1, 1], 0) (by simp [andIn])
  have hi2 := hinf [-1, 1, 1] (by simp [andIn, spinTuples]) (by simp [andIn, feasKeys])
  have hi4 := hinf [1, 1, -1] (by simp [andIn, spinTuples]) (by simp [andIn, feasKeys])
  norm_num [minAuxE, minAuxHJ, energyHJ, auxTuples, auxNodes, spinTuples,
    assignOf, assocGet, minList, andIn] at hf2 hf4 hi2 hi4
  linarith

lemma xor_impossible (g : ℚ) (hg : 0 < g) : RaisesImpossible (xorIn g) := by
  rintro ⟨out, ⟨_, hfe, hinf, hgap⟩⟩
  have hgap' : g ≤ out.gap := le_trans (le_max_left g 0) hgap
  have hf1 := hfe ([-1, -1, -1], 0) (by simp [xorIn])
  have hf2 := hfe ([-1, 1, 1], 0) (by simp [xorIn])
  have hf3 := hfe ([1, -1, 1], 0) (by simp [xorIn])
  have hf4 := hfe ([1, 1, -1], 0) (by simp [xorIn])
  have hi1 := hinf [-1, -1, 1] (by simp [xorIn, spinTuples]) (by simp [xorIn, feasKeys])
  have hi2 := hinf [-1, 1, -1] (by simp [xorIn, spinTuples]) (by simp [xorIn, feasKeys])
  have hi3 := hinf [1, -1, -1] (by simp [xorIn, spinTuples]) (by simp [xorIn, feasKeys])
  have hi4 := hinf [1, 1, 1] (by simp [xorIn, spinTuples]) (by simp [xorIn, feasKeys])
  norm_num [minAuxE, minAuxHJ, energyHJ, auxTuples, auxNodes, spinTuples,
    assignOf, assocGet, minList, xorIn] at hf1 hf2 hf3 hf4 hi1 hi2 hi3 hi4
  linarith

lemma xor_zero_valid : ValidOutput (xorIn (-3)) zeroOut := by
  norm_num [ValidOutput, InRanges, minAuxE, minAuxHJ, energyHJ, auxTuples, auxNodes,
    spinTuples, assignOf, assocGet, minList, feasKeys, xorIn, zeroOut,
    List.forall_mem_cons]

/-! ### The claims -/

/-- C1: For every model returned by `generate_ising` and every feasible
configuration `f ∈ dom(F)`, the minimum over all auxiliary assignments of
the Ising energy of `f` equals `F[f]` exactly (hence within `ε = 1e-6`),
that minimum is attained by some enumerated auxiliary assignment, and every
two feasible configurations with stored offset `0` attain the same minimum
(ground) energy. -/
theorem C1_ground_equality (inp : IsingInputs) (out : IsingOutput)
    (hgen : Generates inp out) :
    (∀ p ∈ inp.feas, minAuxE inp out p.1 = p.2 ∧
      ∃ a ∈ auxTuples inp,
        energyHJ inp out.h out.J (assignOf inp p.1 a) + out.offset = p.2) ∧
    (∀ p q, p ∈ inp.feas → q ∈ inp.feas → p.2 = 0 → q.2 = 0 →
      minAuxE inp out p.1 = minAuxE inp out q.1) := by
  obtain ⟨⟨_, hfe, _, _⟩, _⟩ := hgen
  refine ⟨fun p hp => ⟨hfe p hp, ?_⟩,
    fun p q hp hq hp0 hq0 => by rw [hfe p hp, hfe q hq, hp0, hq0]⟩
  have hne : (auxTuples inp).map
      (fun a => energyHJ inp out.h out.J (assignOf inp p.1 a)) ≠ [] := by
    intro h
    exact spinTuples_ne_nil _ (List.map_eq_nil_iff.mp h)
  obtain ⟨a, ha, hfa⟩ := List.mem_map.mp (minList_mem hne)
  refine ⟨a, ha, ?_⟩
  have hx : energyHJ inp out.h out.J (assignOf inp p.1 a)
      = minAuxHJ inp out.h out.J p.1 := hfa
  rw [hx]
  exact hfe p hp

/-- Witness for C1 at the EQ relation on an edge. -/
theorem C1_witness :
    (∀ p ∈ eqIn.feas, minAuxE eqIn eqOut p.1 = p.2 ∧
      ∃ a ∈ auxTuples eqIn,
        energyHJ eqIn eqOut.h eqOut.J (assignOf eqIn p.1 a) + eqOut.offset = p.2) ∧
    (∀ p q, p ∈ eqIn.feas → q ∈ eqIn.feas → p.2 = 0 → q.2 = 0 →
      minAuxE eqIn eqOut p.1 = minAuxE eqIn eqOut q.1) :=
  C1_ground_equality eqIn eqOut eq_gen

/-- C2: For every model returned by `generate_ising` and every decision
tuple `x ∉ dom(F)`, the minimum over auxiliary assignments of the energy of
`x` is at least the reported gap (hence within `ε`), so every auxiliary
assignment's energy is at least the gap, and the reported gap is at least
`max(min_classical_gap, 0)`. -/
theorem C2_gap_lower_bound (inp : IsingInputs) (out : IsingOutput)
    (hgen : Generates inp out) :
    (∀ x ∈ spinTuples inp.dec.length, x ∉ feasKeys inp →
      out.gap ≤ minAuxE inp out x ∧
      ∀ a ∈ auxTuples inp,
        out.gap ≤ energyHJ inp out.h out.J (assignOf inp x a) + out.offset) ∧
    max inp.gmin 0 ≤ out.gap := by
  obtain ⟨⟨_, _, hinf, hgap⟩, _⟩ := hgen
  refine ⟨fun x hx hnx => ⟨hinf x hx hnx, fun a ha => ?_⟩, hgap⟩
  have h1 : minAuxHJ inp out.h out.J x
      ≤ energyHJ inp out.h out.J (assignOf inp x a) :=
    minList_le (List.mem_map_of_mem _ ha)
  have h2 := hinf x hx hnx
  have h3 : minAuxE inp out x = minAuxHJ inp out.h out.J x + out.offset := rfl
  linarith

/-- Witness for C2 at the EQ relation on an edge. -/
theorem C2_witness :
    (∀ x ∈ spinTuples eqIn.dec.length, x ∉ feasKeys eqIn →
      eqOut.gap ≤ minAuxE eqIn eqOut x ∧
      ∀ a ∈ auxTuples eqIn,
        eqOut.gap ≤ energyHJ eqIn eqOut.h eqOut.J (assignOf eqIn x a) + eqOut.offset) ∧
    max eqIn.gmin 0 ≤ eqOut.gap :=
  C2_gap_lower_bound eqIn eqOut eq_gen

/-- C3: For every model returned by `generate_ising`, every linear bias
`h_v` lies inside the caller-supplied linear range of `v` and every
quadratic bias `J_uv` lies inside the caller-supplied quadratic range of
the edge, also for asymmetric ranges (the ranges are arbitrary intervals
of the inputs). -/
theorem C3_range_containment (inp : IsingInputs) (out : IsingOutput)
    (hgen : Generates inp out) :
    (∀ v ∈ inp.nodes, (inp.linRange v).1 ≤ out.h v ∧ out.h v ≤ (inp.linRange v).2) ∧
    (∀ e ∈ inp.edges,
      (inp.quadRange e).1 ≤ out.J e.1 e.2 ∧ out.J e.1 e.2 ≤ (inp.quadRange e).2) :=
  hgen.1.1

/-- Witness for C3 at the EQ relation with asymmetric ranges
(linear `[-1, 2]`, quadratic `[-1, 1/2]`). -/
theorem C3_witness :
    (∀ v ∈ asymIn.nodes,
      (asymIn.linRange v).1 ≤ eqOut.h v ∧ eqOut.h v ≤ (asymIn.linRange v).2) ∧
    (∀ e ∈ asymIn.edges,
      (asymIn.quadRange e).1 ≤ eqOut.J e.1 e.2 ∧
        eqOut.J e.1 e.2 ≤ (asymIn.quadRange e).2) :=
  C3_range_containment asymIn eqOut asym_gen

/-- C4 counterexample: at `min_classical_gap = -3` the XOR relation on
`K_3` does NOT raise `ImpossiblePenaltyModel` under the spec's own
condition (§6: no model at `gap ≥ max(g_min, 0)`): the all-zero model is
valid with gap `0 = max(-3, 0)`. -/
theorem C4_counterexample : ¬ RaisesImpossible (xorIn (-3)) :=
  fun h => h ⟨zeroOut, xor_zero_valid⟩

/-- C4 (amended): `generate_ising` raises `ImpossiblePenaltyModel` exactly
when no `(h, J, offset)` within the given bias ranges achieves
`gap ≥ max(min_classical_gap, 0)`; in particular the AND relation on a
3-path (at `min_classical_gap = 2`) raises `ImpossiblePenaltyModel`, and
the XOR relation on `K_3` without auxiliary variables raises
`ImpossiblePenaltyModel` for every positive `min_classical_gap` (for
non-positive values the all-zero model meets the spec's condition). -/
theorem C4_impossible_amended :
    (∀ inp, RaisesImpossible inp ↔ ¬ ∃ out, ValidOutput inp out) ∧
    RaisesImpossible andIn ∧
    (∀ g : ℚ, 0 < g → RaisesImpossible (xorIn g)) :=
  ⟨fun _ => Iff.rfl, and_impossible, xor_impossible⟩

/-- Witness for C4 at `min_classical_gap = 1`. -/
theorem C4_witness : (0 : ℚ) < 1 ∧ RaisesImpossible (xorIn 1) :=
  ⟨by norm_num, C4_impossible_amended.2.2 1 (by norm_num)⟩

/-- C5 counterexample: for the singleton relation `F = {(-1,): -1}` on
`K_1` with linear range `[-2, 2]` and `min_classical_gap = -2`, the
generator succeeds but no returned model reports gap `2`: the maximum
achievable gap under the spec's free unbounded offset is `3`
(`h_a = 2`, `offset = 1`). -/
theorem C5_counterexample :
    Generates (sIn (-2)) sOut3 ∧ sOut3.gap = 3 ∧
    ¬ ∃ out, Generates (sIn (-2)) out ∧ out.gap = 2 := by
  refine ⟨sIn_gen (-2) (by norm_num), rfl, ?_⟩
  rintro ⟨out, hgen, h2⟩
  have h3 : (3 : ℚ) ≤ out.gap := hgen.2 sOut3 (sIn_valid (-2) (by norm_num))
  rw [h2] at h3
  norm_num at h3

/-- C5 (amended): for the singleton relation `D = ('a')`,
`F = {(-1,): -1}`, `G = K_1`, linear range `[-2, 2]`,
`min_classical_gap = -2`, the generator succeeds and every returned model
reports gap exactly `3`, the maximum achievable in the box with the free
offset. -/
theorem C5_singleton_amended :
    Generates (sIn (-2)) sOut3 ∧ sOut3.gap = 3 ∧
    ∀ out, Generates (sIn (-2)) out → out.gap = 3 := by
  refine ⟨sIn_gen (-2) (by norm_num), rfl, fun out hgen => le_antisymm ?_ ?_⟩
  · exact sIn_gap_le (-2) out hgen.1
  · exact hgen.2 sOut3 (sIn_valid (-2) (by norm_num))

/-- C6: `generate_ising` is monotone in `min_classical_gap`: with the other
inputs fixed, raising `min_classical_gap` can only turn a successful result
into `ImpossiblePenaltyModel` (never the other way around), and whenever
both calls succeed, the reported gap of the higher-`min_classical_gap` call
is not smaller. -/
theorem C6_gmin_monotone (inp : IsingInputs) (g₁ g₂ : ℚ) (hg : g₁ ≤ g₂) :
    (RaisesImpossible (withGmin inp g₁) → RaisesImpossible (withGmin inp g₂)) ∧
    (∀ out₁ out₂, Generates (withGmin inp g₁) out₁ →
      Generates (withGmin inp g₂) out₂ → out₁.gap ≤ out₂.gap) := by
  constructor
  · rintro h1 ⟨out, hv⟩
    exact h1 ⟨out, valid_gmin_mono hg hv⟩
  · intro out₁ out₂ hgen₁ hgen₂
    have h21 : out₂.gap ≤ out₁.gap := hgen₁.2 out₂ (valid_gmin_mono hg hgen₂.1)
    have hv12 : ValidOutput (withGmin inp g₂) out₁ := by
      obtain ⟨hr, hfe, hinf, _⟩ := hgen₁.1
      exact ⟨hr, hfe, hinf, le_trans hgen₂.1.2.2.2 h21⟩
    exact hgen₂.2 out₁ hv12

/-- Witness for C6: the singleton relation at `min_classical_gap` raised
from `-2` to `1`; both calls succeed with gap `3`. -/
theorem C6_witness : ((-2 : ℚ) ≤ 1) ∧ sOut3.gap ≤ sOut3.gap :=
  ⟨by norm_num,
    (C6_gmin_monotone (sIn 0) (-2) 1 (by norm_num)).2 sOut3 sOut3
      (sIn_gen (-2) (by norm_num)) (sIn_gen 1 (by norm_num))⟩

/-- C7 counterexample: the claim's clause "the returned offset equals the
negation of the minimum `(h, J)`-only energy over feasible configurations"
fails on the generated model of the singleton relation (spec §8 scenario 5,
stored relative offset `-1`): there `offset = 1` while
`-groundHJ = -(-2) = 2`. -/
theorem C7_counterexample :
    Generates (sIn (-2)) sOut3 ∧
    sOut3.offset ≠ - groundHJ (sIn (-2)) sOut3.h sOut3.J := by
  refine ⟨sIn_gen (-2) (by norm_num), ?_⟩
  norm_num [groundHJ, minAuxHJ, energyHJ, auxTuples, auxNodes, spinTuples,
    assignOf, assocGet, minList, sIn, sOut3]

/-- C7 (amended): in every returned model the offset is chosen so that the
ground is normalized: each feasible configuration's total energy
`Σ h_v s_v + Σ J_uv s_u s_v + offset` attains `F[f]` (that is, `0` plus its
stored relative offset), and — `F` being non-empty (spec §3) — the returned
offset equals the minimum stored relative offset minus the minimum
`(h, J)`-only energy over the feasible configurations; this is the negation
of that minimum energy exactly when the minimum stored offset is `0`. -/
theorem C7_offset_ground_amended (inp : IsingInputs) (out : IsingOutput)
    (hgen : Generates inp out) (hne : inp.feas ≠ []) :
    (∀ p ∈ inp.feas, minAuxHJ inp out.h out.J p.1 + out.offset = p.2) ∧
    out.offset = minList (inp.feas.map Prod.snd) - groundHJ inp out.h out.J := by
  obtain ⟨⟨_, hfe, _, _⟩, _⟩ := hgen
  have hfe' : ∀ p ∈ inp.feas, minAuxHJ inp out.h out.J p.1 + out.offset = p.2 :=
    fun p hp => hfe p hp
  refine ⟨hfe', ?_⟩
  have hmapeq : inp.feas.map (fun p => minAuxHJ inp out.h out.J p.1)
      = (inp.feas.map Prod.snd).map (fun x => x - out.offset) := by
    rw [List.map_map]
    refine List.map_congr_left (fun p hp => ?_)
    have := hfe' p hp
    simp only [Function.comp]
    linarith
  have hne' : inp.feas.map Prod.snd ≠ [] := by
    intro h
    exact hne (List.map_eq_nil_iff.mp h)
  have hg : groundHJ inp out.h out.J = minList (inp.feas.map Prod.snd) - out.offset := by
    rw [groundHJ, hmapeq, minList_map_sub hne']
  rw [hg]
  ring

/-- Witness for C7 at the singleton relation: the generated model has
`offset = 1 = (-1) - (-2)`, the minimum stored offset minus the minimum
`(h, J)`-only feasible energy. -/
theorem C7_witness :
    (sIn (-2)).feas ≠ [] ∧
    ((∀ p ∈ (sIn (-2)).feas,
        minAuxHJ (sIn (-2)) sOut3.h sOut3.J p.1 + sOut3.offset = p.2) ∧
      sOut3.offset = minList ((sIn (-2)).feas.map Prod.snd)
        - groundHJ (sIn (-2)) sOut3.h sOut3.J) :=
  ⟨by simp [sIn],
    C7_offset_ground_amended (sIn (-2)) sOut3 (sIn_gen (-2) (by norm_num))
      (by simp [sIn])⟩

/-- C8: For every malformed input (malformed graph, feasible tuples of
wrong arity, a range with `lo > hi`, or non-spin values in configurations),
the generator surfaces `InvalidInput`, and it does so before any SMT call
is made (zero SMT calls are issued). -/
theorem C8_invalid_before_smt (inp : IsingInputs) (oc : GenOutcome) (n : ℕ)
    (hb : Behaves inp oc n) (hval : validInput inp = false) :
    oc = GenOutcome.invalidInput ∧ n = 0 := by
  cases hb with
  | invalid _ => exact ⟨rfl, rfl⟩
  | impossible n h _ =>
    rw [hval] at h
    exact Bool.noConfusion h
  | success n out h _ =>
    rw [hval] at h
    exact Bool.noConfusion h

/-- Witness for C8 at a malformed input whose linear range has `lo > hi`. -/
theorem C8_witness :
    validInput badIn = false ∧
    (GenOutcome.invalidInput = GenOutcome.invalidInput ∧ (0 : ℕ) = 0) := by
  have hv : validInput badIn = false := by
    norm_num [validInput, badIn, spinTupleB]
  exact ⟨hv, C8_invalid_before_smt badIn GenOutcome.invalidInput 0
    (Behaves.invalid hv) hv⟩

end PenaltyModelMaxgap
